import Mathlib

/-!
# Verification of `merge_cidades.py`

A shallow embedding of the weather-CSV merge script `src/merge_cidades.py`:

* Python strings are `List Char` (for the resolver and pipeline stages, where all
  names are already normalized ASCII) or `List α` over an abstract character
  semantics `CharSem` (for the Unicode-aware column-name normalizer).
* The Target Field Resolver (the double loop at `main`, lines 98-110) is embedded
  as a fold over the column list updating an association list keyed by the five
  canonical target bases, exactly mirroring the dict updates of the source.
* Numeric cell values are modelled exactly as rationals `ℚ` (the script's floats
  carry decimal data; pandas/numpy rounding is round-half-to-even, modelled on
  the exact rational value).
* Fallible runtime primitives of Python that the script calls (`float(...)` on a
  string, `str.lower`, Unicode NFKD) are modelled explicitly; every model is
  noted at its definition.
-/

set_option linter.unusedSectionVars false

namespace MergeCidades

/-! ## Python string primitives over `List Char`

`isPrefixList pre s` models `s.startswith(pre)`; `pyEndsWith s suf` models
`s.endswith(suf)`; `pyIn n h` models the Python substring test `n in h`.
-/

def isPrefixList : List Char → List Char → Bool
  | [], _ => true
  | _ :: _, [] => false
  | a :: as, b :: bs => decide (a = b) && isPrefixList as bs

def pyEndsWith (s suf : List Char) : Bool :=
  isPrefixList suf.reverse s.reverse

def pyIn : List Char → List Char → Bool
  | n, [] => isPrefixList n []
  | n, h :: t => isPrefixList n (h :: t) || pyIn n t

theorem isPrefixList_iff :
    ∀ pre s : List Char, isPrefixList pre s = true ↔ ∃ r, s = pre ++ r := by
  intro pre
  induction pre with
  | nil =>
      intro s
      simp [isPrefixList]
  | cons a as ih =>
      intro s
      cases s with
      | nil =>
          simp [isPrefixList]
      | cons b bs =>
          simp only [isPrefixList, Bool.and_eq_true, decide_eq_true_eq, ih]
          constructor
          · rintro ⟨hab, r, hr⟩
            exact ⟨r, by simp [hab, hr]⟩
          · rintro ⟨r, hr⟩
            rw [List.cons_append] at hr
            cases hr
            exact ⟨rfl, r, rfl⟩

theorem pyIn_iff :
    ∀ n h : List Char, pyIn n h = true ↔ ∃ l r, h = l ++ n ++ r := by
  intro n h
  induction h with
  | nil =>
      simp only [pyIn, isPrefixList_iff]
      constructor
      · rintro ⟨r, hr⟩
        exact ⟨[], r, by simp [hr]⟩
      · rintro ⟨l, r, hr⟩
        rcases List.append_eq_nil.mp (List.append_eq_nil.mp hr.symm).1 with ⟨hl, hn⟩
        exact ⟨[], by simp [hn]⟩
  | cons c t ih =>
      simp only [pyIn, Bool.or_eq_true, isPrefixList_iff, ih]
      constructor
      · rintro (⟨r, hr⟩ | ⟨l, r, hr⟩)
        · exact ⟨[], r, by simp [hr]⟩
        · exact ⟨c :: l, r, by simp [hr]⟩
      · rintro ⟨l, r, hr⟩
        cases l with
        | nil => exact Or.inl ⟨r, by simpa using hr⟩
        | cons x xs =>
            right
            rw [List.cons_append, List.cons_append] at hr
            cases hr
            exact ⟨xs, r, rfl⟩

theorem isPrefixList_refl (s : List Char) : isPrefixList s s = true :=
  (isPrefixList_iff s s).mpr ⟨[], by simp⟩

theorem pyIn_refl (s : List Char) : pyIn s s = true :=
  (pyIn_iff s s).mpr ⟨[], [], by simp⟩

theorem pyIn_of_isPrefixList {pre s : List Char} (h : isPrefixList pre s = true) :
    pyIn pre s = true := by
  rcases (isPrefixList_iff pre s).mp h with ⟨r, hr⟩
  exact (pyIn_iff pre s).mpr ⟨[], r, by simp [hr]⟩

theorem isPrefixList_append_left {a b s : List Char}
    (h : isPrefixList (a ++ b) s = true) : isPrefixList a s = true := by
  rcases (isPrefixList_iff (a ++ b) s).mp h with ⟨r, hr⟩
  exact (isPrefixList_iff a s).mpr ⟨b ++ r, by simp [hr]⟩

theorem pyEndsWith_pyIn {s suf : List Char} (h : pyEndsWith s suf = true) :
    pyIn suf s = true := by
  rcases (isPrefixList_iff suf.reverse s.reverse).mp h with ⟨r, hr⟩
  refine (pyIn_iff suf s).mpr ⟨r.reverse, [], ?_⟩
  have := congrArg List.reverse hr
  simpa using this

/-! ## Target Field Resolver (`main`, lines 90-110)

Column names in the script can be non-strings (`if not isinstance(col, str):
continue`), so the resolver input is a `PyColName`.  The resolver state is the
`target_bases` dict: an association list from the five canonical base names to
an optional matched column, in insertion order.
-/

inductive PyColName where
  | str (s : List Char)
  | nonstr (tag : Nat)
deriving DecidableEq

abbrev TBMap := List (List Char × Option (List Char))

def target_bases_keys : List (List Char) :=
  ["precipitacao".toList,
   "temperatura_maxima".toList,
   "temperatura_maxima_absoluta".toList,
   "temperatura_minima".toList,
   "temperatura_minima_absoluta".toList]

/-- `col == base or col.startswith(base + "_") or col.endswith("_" + base) or base in col`
(line 102). -/
def pymatches (base col : List Char) : Bool :=
  decide (col = base) || isPrefixList (base ++ ['_']) col
    || pyEndsWith col ('_' :: base) || pyIn base col

/-- The body of the inner loop (lines 102-110) for one base entry and one string
column: associate the first match, and let a later exact match overwrite. -/
def updStr (base : List Char) (cur : Option (List Char)) (col : List Char) :
    Option (List Char) :=
  if pymatches base col then
    match cur with
    | none => some col
    | some c => if col = base then some col else some c
  else cur

/-- One iteration of the outer loop (line 98): non-string columns are skipped,
a string column is offered to every base entry in order. -/
def stepCol (tb : TBMap) (col : PyColName) : TBMap :=
  match col with
  | .nonstr _ => tb
  | .str s => tb.map (fun e => (e.1, updStr e.1 e.2 s))

def initTB : TBMap := target_bases_keys.map (fun b => (b, none))

/-- The whole resolver loop nest (lines 90-110). -/
def resolveTargetBases (cols : List PyColName) : TBMap :=
  cols.foldl stepCol initTB

/-- `target_bases.get(base)` — `none` both for an unmatched base and for an
absent key (keys are never absent in the script). -/
def lookupTB (tb : TBMap) (b : List Char) : Option (List Char) :=
  (tb.find? (fun e => decide (e.1 = b))).bind Prod.snd

/-! Spec-side characterization of the resolver's tie-break policy, following the
spec's words: the first matching column is the candidate, a later match
overwrites it only when it is exact, and since every exact match *is* the base
string itself, the resolved column is the base itself whenever an exact match
exists anywhere, and otherwise the first (in column order) matching column. -/

def hasExact (cols : List PyColName) (b : List Char) : Bool :=
  cols.any (fun c => match c with
    | .str s => decide (s = b)
    | .nonstr _ => false)

def firstMatchCol (cols : List PyColName) (b : List Char) : Option (List Char) :=
  cols.findSome? (fun c => match c with
    | .str s => if pymatches b s then some s else none
    | .nonstr _ => none)

def resolveSpec (cols : List PyColName) (b : List Char) : Option (List Char) :=
  if hasExact cols b then some b else firstMatchCol cols b

/-- The per-base evolution of the resolver state along the column list. -/
def updFold (b : List Char) (cur : Option (List Char)) (cols : List PyColName) :
    Option (List Char) :=
  cols.foldl (fun cur c => match c with
    | .nonstr _ => cur
    | .str s => updStr b cur s) cur

theorem pymatches_self (b : List Char) : pymatches b b = true := by
  simp [pymatches]

theorem updFold_char (b : List Char) :
    ∀ (cols : List PyColName) (cur : Option (List Char)),
      updFold b cur cols =
        if hasExact cols b then some b
        else match cur with
          | some c => some c
          | none => firstMatchCol cols b := by
  intro cols
  induction cols with
  | nil =>
      intro cur
      cases cur <;> simp [updFold, hasExact, firstMatchCol]
  | cons c rest ih =>
      intro cur
      cases c with
      | nonstr tag =>
          have step : updFold b cur (PyColName.nonstr tag :: rest)
              = updFold b cur rest := rfl
          rw [step, ih]
          have hx : hasExact (PyColName.nonstr tag :: rest) b = hasExact rest b := by
            simp [hasExact]
          have hf : firstMatchCol (PyColName.nonstr tag :: rest) b
              = firstMatchCol rest b := by
            simp [firstMatchCol, List.findSome?]
          rw [hx, hf]
      | str s =>
          have step : updFold b cur (PyColName.str s :: rest)
              = updFold b (updStr b cur s) rest := rfl
          rw [step, ih]
          by_cases hsb : s = b
          · have hm : pymatches b s = true := by rw [hsb]; exact pymatches_self b
            have hupd : updStr b cur s = some b := by
              cases cur with
              | none => simp [updStr, hm, hsb, pymatches_self]
              | some c0 => simp [updStr, hm, hsb, pymatches_self]
            rw [hupd]
            have hx : hasExact (PyColName.str s :: rest) b = true := by
              simp [hasExact, hsb]
            rw [hx]
            simp only [if_true]
            split <;> rfl
          · by_cases hm : pymatches b s = true
            · have hupd : updStr b cur s =
                  (match cur with | none => some s | some c0 => some c0) := by
                cases cur with
                | none => simp [updStr, hm]
                | some c0 => simp [updStr, hm, hsb]
              rw [hupd]
              have hx : hasExact (PyColName.str s :: rest) b = hasExact rest b := by
                simp [hasExact, hsb]
              have hf : firstMatchCol (PyColName.str s :: rest) b = some s := by
                simp [firstMatchCol, List.findSome?, hm]
              rw [hx, hf]
              cases cur <;> simp
            · have hmf : pymatches b s = false := by simpa using hm
              have hupd : updStr b cur s = cur := by simp [updStr, hmf]
              rw [hupd]
              have hx : hasExact (PyColName.str s :: rest) b = hasExact rest b := by
                simp [hasExact, hsb]
              have hf : firstMatchCol (PyColName.str s :: rest) b
                  = firstMatchCol rest b := by
                simp [firstMatchCol, List.findSome?, hmf]
              rw [hx, hf]

/-- `find?` commutes with a key-preserving map over the association list. -/
theorem find?_map_keyfix {A : Type} (g : A → A) (p : A → Bool)
    (hp : ∀ e, p (g e) = p e) :
    ∀ l : List A, (l.map g).find? p = (l.find? p).map g := by
  intro l
  induction l with
  | nil => rfl
  | cons e rest ih =>
      by_cases he : p e = true
      · have hge : p (g e) = true := by rw [hp]; exact he
        rw [List.map_cons, List.find?_cons_of_pos _ hge, List.find?_cons_of_pos _ he]
        rfl
      · have hge : ¬p (g e) = true := by rw [hp]; exact he
        rw [List.map_cons, List.find?_cons_of_neg _ hge, List.find?_cons_of_neg _ he]
        exact ih

/-- Key helper: the resolved value for base `b` is the per-base fold of the
update function over the columns, starting from the initial `none`. -/
theorem lookupTB_resolve (cols : List PyColName) (b : List Char)
    (hb : b ∈ target_bases_keys) :
    lookupTB (resolveTargetBases cols) b = updFold b none cols := by
  have keyInit : ∃ e, initTB.find? (fun e => decide (e.1 = b)) = some e ∧ e.1 = b := by
    fin_cases hb <;> exact ⟨_, rfl, rfl⟩
  suffices h : ∀ (cols : List PyColName) (tb : TBMap),
      (∃ e, tb.find? (fun e => decide (e.1 = b)) = some e ∧ e.1 = b) →
      lookupTB (cols.foldl stepCol tb) b = updFold b (lookupTB tb b) cols by
    have h0 := h cols initTB keyInit
    rw [resolveTargetBases, h0]
    have hnone : lookupTB initTB b = none := by
      fin_cases hb <;> rfl
    rw [hnone]
  intro cols
  induction cols with
  | nil =>
      intro tb _
      simp [updFold]
  | cons c rest ih =>
      intro tb hkey
      rcases hkey with ⟨e, hfe, heb⟩
      have hstep : List.foldl stepCol tb (c :: rest) =
          List.foldl stepCol (stepCol tb c) rest := rfl
      cases c with
      | nonstr tag =>
          rw [hstep]
          have hkey' : ∃ e', (stepCol tb (PyColName.nonstr tag)).find?
              (fun e => decide (e.1 = b)) = some e' ∧ e'.1 = b := ⟨e, hfe, heb⟩
          rw [ih _ hkey']
          rfl
      | str s =>
          rw [hstep]
          have hmap : (stepCol tb (PyColName.str s)).find? (fun e => decide (e.1 = b))
              = some (e.1, updStr e.1 e.2 s) := by
            have := find?_map_keyfix (fun e => (e.1, updStr e.1 e.2 s))
              (fun e => decide (e.1 = b)) (fun e => rfl) tb
            rw [stepCol, this, hfe]
            rfl
          have hkey' : ∃ e', (stepCol tb (PyColName.str s)).find?
              (fun e => decide (e.1 = b)) = some e' ∧ e'.1 = b :=
            ⟨(e.1, updStr e.1 e.2 s), hmap, heb⟩
          rw [ih _ hkey']
          have hlhs : lookupTB (stepCol tb (PyColName.str s)) b
              = updStr b (lookupTB tb b) s := by
            rw [lookupTB, hmap, lookupTB, hfe]
            simp [heb]
          rw [hlhs]
          rfl

/-! ## Name Normalizer (`normalize_colname`, lines 15-34)

The normalizer calls Python/Unicode character primitives (`unicodedata.normalize
("NFKD", ·)`, `unicodedata.combining`, `str.lower`, `str.strip`, `str.isalnum`).
These are runtime primitives, not code of this repository, so they are modelled
abstractly by a `CharSem` record over an arbitrary character type `α`; the
string-level algorithm of `normalize_colname` is embedded faithfully on top.
`lower` maps one character to a list because Python's `str.lower` can expand a
character (e.g. U+0130).
-/

structure CharSem (α : Type) where
  /-- per-character `unicodedata.normalize("NFKD", ·)` -/
  nfkd : α → List α
  /-- `unicodedata.combining c != 0` -/
  combining : α → Bool
  /-- per-character `str.lower` (possibly one-to-many) -/
  lower : α → List α
  /-- whitespace as stripped by `str.strip()` -/
  isSpace : α → Bool
  /-- `c.isalnum()` -/
  isAlnum : α → Bool
  /-- `c.isupper()` -/
  isUpper : α → Bool
  /-- the underscore character -/
  underscore : α

variable {α : Type} [DecidableEq α]

/-- `s.strip(…)`: drop characters satisfying `p` from both ends. -/
def pstrip (p : α → Bool) (l : List α) : List α :=
  ((l.dropWhile p).reverse.dropWhile p).reverse

/-- One pass of `cleaned_s.replace("__", "_")`: replace non-overlapping
occurrences of two `u`s by one `u`, left to right. -/
def replaceUU (u : α) : List α → List α
  | [] => []
  | [a] => [a]
  | a :: b :: t =>
      if a = u ∧ b = u then u :: replaceUU u t
      else a :: replaceUU u (b :: t)

/-- `"__" in s`. -/
def hasUU (u : α) : List α → Bool
  | [] => false
  | [_] => false
  | a :: b :: t => (decide (a = u) && decide (b = u)) || hasUU u (b :: t)

/-- The `while "__" in cleaned_s:` loop (lines 32-33), run with enough fuel to
reach its fixpoint: each pass strictly shortens a string still containing
`"__"` (`length_replaceUU_lt`), so `s.length` passes always suffice. -/
def collapseLoop (u : α) : Nat → List α → List α
  | 0, s => s
  | n + 1, s => if hasUU u s then collapseLoop u n (replaceUU u s) else s

def collapseUU (u : α) (s : List α) : List α := collapseLoop u s.length s

/-- `normalize_colname` on a string input.  (The non-string passthrough of
lines 16-17 is modelled at the call sites, which only feed strings here.) -/
def normalize_colname (S : CharSem α) (col : List α) : List α :=
  let nfkdS := col.flatMap S.nfkd
  let without_accents := nfkdS.filter (fun c => !(S.combining c))
  let lowered := pstrip S.isSpace (without_accents.flatMap S.lower)
  let cleaned := lowered.map (fun ch => if S.isAlnum ch then ch else S.underscore)
  pstrip (fun c => decide (c = S.underscore)) (collapseUU S.underscore cleaned)

theorem length_replaceUU_le (u : α) : ∀ s : List α, (replaceUU u s).length ≤ s.length := by
  intro s
  induction s using replaceUU.induct u with
  | case1 => simp [replaceUU]
  | case2 a => simp [replaceUU]
  | case3 a b t h ih =>
      simp only [replaceUU]
      rw [if_pos h]
      simp only [List.length_cons]
      omega
  | case4 a b t h ih =>
      simp only [replaceUU]
      rw [if_neg h]
      simp only [List.length_cons] at ih ⊢
      omega

theorem length_replaceUU_lt (u : α) :
    ∀ s : List α, hasUU u s = true → (replaceUU u s).length < s.length := by
  intro s
  induction s using replaceUU.induct u with
  | case1 => intro h; simp [hasUU] at h
  | case2 a => intro h; simp [hasUU] at h
  | case3 a b t h ih =>
      intro _
      simp only [replaceUU]
      rw [if_pos h]
      have := length_replaceUU_le u t
      simp only [List.length_cons]
      omega
  | case4 a b t h ih =>
      intro hUU
      have hab : ¬(decide (a = u) && decide (b = u)) = true := by
        rcases not_and_or.mp h with h1 | h1 <;> simp [h1]
      have htail : hasUU u (b :: t) = true := by
        cases t with
        | nil => simp [hasUU, hab] at hUU
        | cons x xs =>
            simp only [hasUU, Bool.or_eq_true] at hUU
            rcases hUU with h2 | h2
            · exact absurd h2 hab
            · simpa [hasUU] using h2
      simp only [replaceUU]
      rw [if_neg h]
      have := ih htail
      simp only [List.length_cons] at this ⊢
      omega

theorem hasUU_collapseLoop (u : α) :
    ∀ (n : Nat) (s : List α), s.length ≤ n → hasUU u (collapseLoop u n s) = false := by
  intro n
  induction n with
  | zero =>
      intro s hs
      have : s = [] := List.length_eq_zero.mp (Nat.le_zero.mp hs)
      subst this
      rfl
  | succ n ih =>
      intro s hs
      by_cases h : hasUU u s = true
      · have hlt := length_replaceUU_lt u s h
        simp only [collapseLoop, h, if_true]
        exact ih _ (by omega)
      · simp only [collapseLoop, h, if_false]
        simpa using h

theorem hasUU_collapseUU (u : α) (s : List α) : hasUU u (collapseUU u s) = false :=
  hasUU_collapseLoop u s.length s (Nat.le_refl _)

theorem collapseUU_eq_self {u : α} {s : List α} (h : hasUU u s = false) :
    collapseUU u s = s := by
  cases hn : s.length with
  | zero => simp [collapseUU, hn, collapseLoop]
  | succ n => simp [collapseUU, hn, collapseLoop, h]

theorem mem_replaceUU {u : α} : ∀ {s : List α} {c : α},
    c ∈ replaceUU u s → c = u ∨ c ∈ s := by
  intro s
  induction s using replaceUU.induct u with
  | case1 => intro c hc; simp [replaceUU] at hc
  | case2 a => intro c hc; simp [replaceUU] at hc; simp [hc]
  | case3 a b t h ih =>
      intro c hc
      simp only [replaceUU] at hc
      rw [if_pos h] at hc
      simp only [List.mem_cons] at hc
      rcases hc with hc | hc
      · exact Or.inl hc
      · rcases ih hc with hc | hc
        · exact Or.inl hc
        · exact Or.inr (by simp [hc])
  | case4 a b t h ih =>
      intro c hc
      simp only [replaceUU] at hc
      rw [if_neg h] at hc
      simp only [List.mem_cons] at hc
      rcases hc with hc | hc
      · exact Or.inr (by simp [hc])
      · rcases ih hc with hc | hc
        · exact Or.inl hc
        · exact Or.inr (by simpa using Or.inr hc)

theorem mem_collapseLoop {u : α} : ∀ (n : Nat) {s : List α} {c : α},
    c ∈ collapseLoop u n s → c = u ∨ c ∈ s := by
  intro n
  induction n with
  | zero => intro s c hc; exact Or.inr hc
  | succ n ih =>
      intro s c hc
      by_cases h : hasUU u s = true
      · simp only [collapseLoop, h, if_true] at hc
        rcases ih hc with hc | hc
        · exact Or.inl hc
        · exact mem_replaceUU hc
      · simp only [collapseLoop, h, if_false] at hc
        exact Or.inr hc

theorem mem_pstrip {p : α → Bool} {l : List α} {c : α} (hc : c ∈ pstrip p l) : c ∈ l := by
  have h1 : c ∈ (l.dropWhile p).reverse.dropWhile p := by
    simpa [pstrip] using hc
  have h2 : c ∈ (l.dropWhile p).reverse := (List.dropWhile_suffix p).subset h1
  exact (List.dropWhile_suffix p).subset (by simpa using h2)

theorem head?_dropWhile {p : α → Bool} :
    ∀ {l : List α} {a : α}, (l.dropWhile p).head? = some a → p a = false := by
  intro l
  induction l with
  | nil => intro a h; simp [List.dropWhile] at h
  | cons x xs ih =>
      intro a h
      by_cases hx : p x = true
      · exact ih (by simpa [List.dropWhile, hx] using h)
      · have hx' : p x = false := by simpa using hx
        simp [List.dropWhile, hx'] at h
        simpa [← h] using hx'

theorem getLast?_mem {l : List α} {a : α} (h : l.getLast? = some a) : a ∈ l :=
  List.mem_of_mem_getLast? h

theorem head?_pstrip {p : α → Bool} {l : List α} {a : α}
    (h : (pstrip p l).head? = some a) : p a = false := by
  have h' : ((l.dropWhile p).reverse.dropWhile p).getLast? = some a := by
    simpa [pstrip] using h
  rcases List.suffix_iff_eq_append.mp (List.dropWhile_suffix (l := (l.dropWhile p).reverse) p)
    with hsplit
  set y := (l.dropWhile p).reverse.dropWhile p with hy
  cases hynil : y with
  | nil => simp [hynil] at h'
  | cons z zs =>
      -- getLast? of the suffix equals getLast? of the whole reversed list
      have hyy : (l.dropWhile p).reverse.getLast? = some a := by
        rw [← hsplit] at *
        rw [hynil] at h' ⊢
        rw [List.getLast?_append_of_ne_nil _ (by simp)]
        exact h'
      have : (l.dropWhile p).head? = some a := by simpa using hyy
      exact head?_dropWhile this

theorem getLast?_pstrip {p : α → Bool} {l : List α} {a : α}
    (h : (pstrip p l).getLast? = some a) : p a = false := by
  have h' : ((l.dropWhile p).reverse.dropWhile p).head? = some a := by
    simpa [pstrip] using h
  exact head?_dropWhile h'

theorem pstrip_eq_self_of_ends {p : α → Bool} {l : List α}
    (h1 : ∀ a, l.head? = some a → p a = false)
    (h2 : ∀ a, l.getLast? = some a → p a = false) : pstrip p l = l := by
  have hd : l.dropWhile p = l := by
    cases l with
    | nil => rfl
    | cons x xs => simp [List.dropWhile, h1 x rfl]
  have hrev : l.reverse.dropWhile p = l.reverse := by
    cases hl : l.reverse with
    | nil => rfl
    | cons x xs =>
        have hx : l.getLast? = some x := by
          have : l.reverse.head? = some x := by simp [hl]
          simpa using this
        rw [← hl]
        cases hl' : l.reverse with
        | nil => rfl
        | cons y ys =>
            have : y = x := by
              rw [hl'] at hl
              exact (List.cons.injEq _ _ _ _).mp hl |>.1

            simp [List.dropWhile, this, h2 x hx]
  rw [pstrip, hd, hrev, List.reverse_reverse]

theorem hasUU_iff (u : α) : ∀ s : List α, (hasUU u s = true ↔ ∃ l r, s = l ++ u :: u :: r) := by
  intro s
  induction s using hasUU.induct u with
  | case1 =>
      constructor
      · intro h; simp [hasUU] at h
      · rintro ⟨l, r, hr⟩
        have := congrArg List.length hr
        simp at this
        omega
  | case2 a =>
      constructor
      · intro h; simp [hasUU] at h
      · rintro ⟨l, r, hr⟩
        have := congrArg List.length hr
        simp at this
        omega
  | case3 a b t ih =>
      simp only [hasUU, Bool.or_eq_true, Bool.and_eq_true, decide_eq_true_eq, ih]
      constructor
      · rintro (⟨ha, hb⟩ | ⟨l, r, hr⟩)
        · exact ⟨[], t, by simp [ha, hb]⟩
        · exact ⟨a :: l, r, by simp [hr]⟩
      · rintro ⟨l, r, hr⟩
        cases l with
        | nil =>
            left
            simp only [List.nil_append, List.cons.injEq] at hr
            exact ⟨hr.1, hr.2.1⟩
        | cons x xs =>
            right
            rw [List.cons_append, List.cons.injEq] at hr
            exact ⟨xs, r, hr.2⟩

theorem hasUU_reverse (u : α) (s : List α) : hasUU u s.reverse = hasUU u s := by
  have key : ∀ t : List α, hasUU u t = true → hasUU u t.reverse = true := by
    intro t ht
    rcases (hasUU_iff u t).mp ht with ⟨l, r, hr⟩
    refine (hasUU_iff u t.reverse).mpr ⟨r.reverse, l.reverse, ?_⟩
    subst hr
    simp
  cases h : hasUU u s with
  | true => rw [key s h]
  | false =>
      cases h2 : hasUU u s.reverse with
      | false => rfl
      | true =>
          have := key _ h2
          rw [List.reverse_reverse] at this
          rw [this] at h
          exact absurd h (by simp)

theorem hasUU_false_dropWhile (u : α) (p : α → Bool) {s : List α}
    (h : hasUU u s = false) : hasUU u (s.dropWhile p) = false := by
  cases h2 : hasUU u (s.dropWhile p) with
  | false => rfl
  | true =>
      rcases (hasUU_iff u _).mp h2 with ⟨l, r, hr⟩
      rcases List.dropWhile_suffix (l := s) p with ⟨pre, hpre⟩
      have hs : s = (pre ++ l) ++ u :: u :: r := by
        rw [← hpre, hr, List.append_assoc]
      have := (hasUU_iff u s).mpr ⟨pre ++ l, r, hs⟩
      exact absurd this (by simp [h])

theorem hasUU_false_pstrip (u : α) (p : α → Bool) {s : List α}
    (h : hasUU u s = false) : hasUU u (pstrip p s) = false := by
  unfold pstrip
  rw [hasUU_reverse]
  apply hasUU_false_dropWhile
  rw [hasUU_reverse]
  exact hasUU_false_dropWhile u p h

theorem flatMap_eq_self {f : α → List α} :
    ∀ {l : List α}, (∀ c ∈ l, f c = [c]) → l.flatMap f = l := by
  intro l
  induction l with
  | nil => intro _; rfl
  | cons a t ih =>
      intro h
      rw [List.flatMap_cons, h a (by simp), ih (fun c hc => h c (by simp [hc]))]
      rfl

theorem map_eq_self {f : α → α} :
    ∀ {l : List α}, (∀ c ∈ l, f c = c) → l.map f = l := by
  intro l
  induction l with
  | nil => intro _; rfl
  | cons a t ih =>
      intro h
      rw [List.map_cons, h a (by simp), ih (fun c hc => h c (by simp [hc]))]

/-- Every character of a normalized name is the underscore, or an alphanumeric
character produced by lowering a non-combining character. -/
theorem mem_normalize_classify (S : CharSem α) (x : List α) {c : α}
    (hc : c ∈ normalize_colname S x) :
    c = S.underscore ∨
      (S.isAlnum c = true ∧ ∃ d, S.combining d = false ∧ c ∈ S.lower d) := by
  simp only [normalize_colname] at hc
  have h1 := mem_pstrip hc
  have h2 := mem_collapseLoop _ h1
  rcases h2 with h2 | h2
  · exact Or.inl h2
  · rcases List.mem_map.mp h2 with ⟨d0, hd0, hcd⟩
    by_cases ha : S.isAlnum d0 = true
    · rw [if_pos ha] at hcd
      subst hcd
      refine Or.inr ⟨ha, ?_⟩
      have h3 := mem_pstrip hd0
      rcases List.mem_flatMap.mp h3 with ⟨d, hd, hlow⟩
      rcases List.mem_filter.mp hd with ⟨_, hcomb⟩
      exact ⟨d, by simpa using hcomb, hlow⟩
    · rw [if_neg ha] at hcd
      exact Or.inl hcd.symm

theorem normalize_head_ne (S : CharSem α) (x : List α) {a : α}
    (h : (normalize_colname S x).head? = some a) : a ≠ S.underscore := by
  simp only [normalize_colname] at h
  have := head?_pstrip h
  simpa using this

theorem normalize_last_ne (S : CharSem α) (x : List α) {a : α}
    (h : (normalize_colname S x).getLast? = some a) : a ≠ S.underscore := by
  simp only [normalize_colname] at h
  have := getLast?_pstrip h
  simpa using this

theorem normalize_noUU (S : CharSem α) (x : List α) :
    hasUU S.underscore (normalize_colname S x) = false := by
  simp only [normalize_colname]
  exact hasUU_false_pstrip _ _ (hasUU_collapseUU _ _)

/-! ## Value Formatter (`format_until_one_decimal`, lines 137-146) and numeric
primitives

Cell values that are numbers are modelled exactly as rationals.  `rhe` models
correct rounding to the nearest integer with ties to even — the rounding used
both by pandas/numpy `Series.round` and by CPython's fixed-point formatting
`f"{x:.1f}"` on the exact value.
-/

/-- Round half to even, to the nearest integer. -/
def rhe (q : ℚ) : ℤ :=
  if q - ⌊q⌋ < 1/2 then ⌊q⌋
  else if 1/2 < q - ⌊q⌋ then ⌊q⌋ + 1
  else if Even ⌊q⌋ then ⌊q⌋ else ⌊q⌋ + 1

/-- `Series.round(1)` (line 131): round to one decimal place. -/
def round1 (q : ℚ) : ℚ := (rhe (10 * q) : ℚ) / 10

/-- MSB-first decimal digits of a natural number; fuel-driven, `fuel > k`
suffices (`natDigitsAux_spec`). -/
def natDigitsAux : Nat → Nat → List Nat
  | 0, _ => []
  | fuel + 1, k => if k < 10 then [k] else natDigitsAux fuel (k / 10) ++ [k % 10]

def natDigits (k : Nat) : List Nat := natDigitsAux (k + 1) k

def digitChar (d : Nat) : Char := Char.ofNat (48 + d)

def natChars (k : Nat) : List Char := (natDigits k).map digitChar

/-- `str(n)` for a Python `int`. -/
def intToString (n : ℤ) : List Char :=
  if n < 0 then '-' :: natChars n.natAbs else natChars n.toNat

def charVal (c : Char) : Nat := c.toNat - 48

def pyIsDigit (c : Char) : Bool := 48 ≤ c.toNat && c.toNat ≤ 57

def parseDigits (ds : List Nat) : Nat := ds.foldl (fun a d => 10 * a + d) 0

/-- Models Python `float(s)` on the sign/digits/point strings that arise here
(no exponents, specials or surrounding whitespace occur in this pipeline). -/
def parseUnsigned (s : List Char) : Option ℚ :=
  let ip := s.takeWhile pyIsDigit
  let rest := s.dropWhile pyIsDigit
  match rest with
  | [] => if ip.isEmpty then none else some ((parseDigits (ip.map charVal) : ℕ) : ℚ)
  | c :: fp =>
      if c = '.' then
        if fp.all pyIsDigit && !(ip.isEmpty && fp.isEmpty) then
          some (((parseDigits (ip.map charVal) : ℕ) : ℚ)
            + ((parseDigits (fp.map charVal) : ℕ) : ℚ) / (10 : ℚ) ^ fp.length)
        else none
      else none

def pyFloat? (s : List Char) : Option ℚ :=
  match s with
  | [] => none
  | c :: t =>
      if c = '-' then (parseUnsigned t).map (fun q => -q)
      else if c = '+' then parseUnsigned t
      else parseUnsigned (c :: t)

/-- Decimal rendering of a number of tenths: `tenthsChars 56 = "5.6"`,
`tenthsChars (-3) = "-0.3"`. -/
def tenthsChars (m : ℤ) : List Char :=
  (if m < 0 then ['-'] else []) ++ natChars (m.natAbs / 10)
    ++ '.' :: [digitChar (m.natAbs % 10)]

/-- `f"{fv:.1f}"` on the exact value: correctly round `10·q` to an integer
(ties to even) and print with one digit after the point. -/
def oneDecChars (q : ℚ) : List Char := tenthsChars (rhe (10 * q))

/-- `str(int(fv))` when `fv.is_integer()` else `f"{fv:.1f}"` (lines 144-146). -/
def numFmt (q : ℚ) : List Char :=
  if q.den = 1 then intToString q.num else oneDecChars q

/-- Cell values: missing (`pd.isna` true), a number, or a string (on which
`float(v)` succeeds exactly when `pyFloat?` does). -/
inductive Cell where
  | na
  | num (q : ℚ)
  | str (s : List Char)
deriving DecidableEq

/-- `format_until_one_decimal` (lines 137-146). -/
def format_until_one_decimal (v : Cell) : List Char :=
  match v with
  | .na => []
  | .num q => numFmt q
  | .str s =>
      match pyFloat? s with
      | some q => numFmt q
      | none => s

/-- `float(v)` (line 141): never reached on missing values. -/
def cellFloat? : Cell → Option ℚ
  | .na => none
  | .num q => some q
  | .str s => pyFloat? s

theorem parseDigits_append_singleton (xs : List Nat) (d : Nat) :
    parseDigits (xs ++ [d]) = 10 * parseDigits xs + d := by
  rw [parseDigits, List.foldl_append]
  rfl

theorem natDigitsAux_spec :
    ∀ (fuel k : Nat), k < fuel →
      parseDigits (natDigitsAux fuel k) = k ∧
      (∀ d ∈ natDigitsAux fuel k, d < 10) ∧ natDigitsAux fuel k ≠ [] := by
  intro fuel
  induction fuel with
  | zero => intro k hk; omega
  | succ fuel ih =>
      intro k hk
      by_cases h10 : k < 10
      · refine ⟨?_, ?_, ?_⟩
        · simp only [natDigitsAux, h10, if_true, parseDigits, List.foldl_cons,
            List.foldl_nil]
          omega
        · intro d hd
          simp only [natDigitsAux, h10, if_true, List.mem_singleton] at hd
          omega
        · simp [natDigitsAux, h10]
      · have hdiv : k / 10 < k := Nat.div_lt_self (by omega) (by omega)
        have hfuel : k / 10 < fuel := by omega
        obtain ⟨hp, hd, hne⟩ := ih (k / 10) hfuel
        refine ⟨?_, ?_, ?_⟩
        · simp only [natDigitsAux, h10, if_false]
          rw [parseDigits_append_singleton, hp]
          exact Nat.div_add_mod k 10
        · intro d hd'
          simp only [natDigitsAux, h10, if_false, List.mem_append,
            List.mem_singleton] at hd'
          rcases hd' with hd' | hd'
          · exact hd d hd'
          · subst hd'; exact Nat.mod_lt _ (by omega)
        · simp [natDigitsAux, h10]

theorem natDigits_parse (k : Nat) : parseDigits (natDigits k) = k :=
  (natDigitsAux_spec (k + 1) k (Nat.lt_succ_self k)).1

theorem natDigits_lt (k : Nat) : ∀ d ∈ natDigits k, d < 10 :=
  (natDigitsAux_spec (k + 1) k (Nat.lt_succ_self k)).2.1

theorem natDigits_ne_nil (k : Nat) : natDigits k ≠ [] :=
  (natDigitsAux_spec (k + 1) k (Nat.lt_succ_self k)).2.2

theorem charVal_digitChar {d : Nat} (h : d < 10) : charVal (digitChar d) = d := by
  interval_cases d <;> rfl

theorem pyIsDigit_digitChar {d : Nat} (h : d < 10) : pyIsDigit (digitChar d) = true := by
  interval_cases d <;> rfl

theorem digitChar_ne_dash {d : Nat} (h : d < 10) : digitChar d ≠ '-' := by
  interval_cases d <;> decide

theorem digitChar_ne_plus {d : Nat} (h : d < 10) : digitChar d ≠ '+' := by
  interval_cases d <;> decide

theorem digitChar_ne_dot {d : Nat} (h : d < 10) : digitChar d ≠ '.' := by
  interval_cases d <;> decide

theorem natChars_all_digit (k : Nat) : ∀ c ∈ natChars k, pyIsDigit c = true := by
  intro c hc
  rcases List.mem_map.mp hc with ⟨d, hd, hdc⟩
  subst hdc
  exact pyIsDigit_digitChar (natDigits_lt k d hd)

theorem natChars_ne_nil (k : Nat) : natChars k ≠ [] := by
  simp [natChars, natDigits_ne_nil k]

theorem parse_natChars (k : Nat) :
    parseDigits ((natChars k).map charVal) = k := by
  rw [natChars, List.map_map]
  have : (natDigits k).map (charVal ∘ digitChar) = natDigits k :=
    map_eq_self (fun d hd => charVal_digitChar (natDigits_lt k d hd))
  rw [this, natDigits_parse]

theorem takeWhile_append_all {p : Char → Bool} :
    ∀ {l r : List Char}, (∀ c ∈ l, p c = true) →
      (l ++ r).takeWhile p = l ++ r.takeWhile p := by
  intro l
  induction l with
  | nil => intro r _; rfl
  | cons a t ih =>
      intro r h
      rw [List.cons_append, List.takeWhile_cons, if_pos (h a (by simp)),
        ih (fun c hc => h c (by simp [hc])), List.cons_append]

theorem dropWhile_append_all {p : Char → Bool} :
    ∀ {l r : List Char}, (∀ c ∈ l, p c = true) →
      (l ++ r).dropWhile p = r.dropWhile p := by
  intro l
  induction l with
  | nil => intro r _; rfl
  | cons a t ih =>
      intro r h
      rw [List.cons_append, List.dropWhile_cons, if_pos (h a (by simp)),
        ih (fun c hc => h c (by simp [hc]))]

theorem parseUnsigned_natChars (k : Nat) :
    parseUnsigned (natChars k) = some ((k : ℕ) : ℚ) := by
  have htake : (natChars k).takeWhile pyIsDigit = natChars k := by
    have := takeWhile_append_all (r := []) (natChars_all_digit k)
    simpa using this
  have hdrop : (natChars k).dropWhile pyIsDigit = [] := by
    have := dropWhile_append_all (r := []) (natChars_all_digit k)
    simpa using this
  simp only [parseUnsigned, htake, hdrop]
  rw [if_neg (by simp [List.isEmpty_iff, natChars_ne_nil k])]
  rw [parse_natChars]

theorem parseUnsigned_tenths (a : Nat) :
    parseUnsigned (natChars (a / 10) ++ '.' :: [digitChar (a % 10)])
      = some ((a : ℚ) / 10) := by
  have hdot : pyIsDigit '.' = false := rfl
  have htake : (natChars (a / 10) ++ '.' :: [digitChar (a % 10)]).takeWhile pyIsDigit
      = natChars (a / 10) := by
    rw [takeWhile_append_all (natChars_all_digit _), List.takeWhile_cons, if_neg (by simp [hdot])]
    simp
  have hdrop : (natChars (a / 10) ++ '.' :: [digitChar (a % 10)]).dropWhile pyIsDigit
      = '.' :: [digitChar (a % 10)] := by
    rw [dropWhile_append_all (natChars_all_digit _), List.dropWhile_cons, if_neg (by simp [hdot])]
  simp only [parseUnsigned, htake, hdrop]
  rw [if_pos trivial]
  rw [if_pos (by
    simp [pyIsDigit_digitChar (Nat.mod_lt a (show 0 < 10 by omega))])]
  congr 1
  rw [parse_natChars]
  have hfrac : parseDigits ([digitChar (a % 10)].map charVal) = a % 10 := by
    simp [parseDigits, charVal_digitChar (Nat.mod_lt a (show 0 < 10 by omega))]
  rw [hfrac]
  have h : (10 : ℚ) * ((a / 10 : ℕ) : ℚ) + ((a % 10 : ℕ) : ℚ) = (a : ℚ) := by
    exact_mod_cast Nat.div_add_mod a 10
  simp only [List.length_cons, List.length_nil, pow_one]
  field_simp
  linarith [h]

theorem pyFloat?_of_digit_head {s : List Char}
    (hd : ∀ c, s.head? = some c → pyIsDigit c = true) (hne : s ≠ []) :
    pyFloat? s = parseUnsigned s := by
  cases s with
  | nil => exact absurd rfl hne
  | cons c t =>
      have hdc : pyIsDigit c = true := hd c rfl
      have h1 : c ≠ '-' := by
        intro h; rw [h] at hdc; exact absurd hdc (by decide)
      have h2 : c ≠ '+' := by
        intro h; rw [h] at hdc; exact absurd hdc (by decide)
      simp [pyFloat?, h1, h2]

theorem natChars_head_digit (k : Nat) :
    ∀ c, (natChars k).head? = some c → pyIsDigit c = true := by
  intro c hc
  have : c ∈ natChars k := List.mem_of_mem_head? hc
  exact natChars_all_digit k c this

theorem pyFloat?_natChars (k : Nat) : pyFloat? (natChars k) = some ((k : ℕ) : ℚ) := by
  rw [pyFloat?_of_digit_head (natChars_head_digit k) (natChars_ne_nil k),
    parseUnsigned_natChars]

theorem pyFloat?_intToString (n : ℤ) : pyFloat? (intToString n) = some ((n : ℤ) : ℚ) := by
  by_cases hn : n < 0
  · rw [intToString, if_pos hn]
    have : pyFloat? ('-' :: natChars n.natAbs)
        = (parseUnsigned (natChars n.natAbs)).map (fun q => -q) := by
      simp [pyFloat?]
    rw [this, parseUnsigned_natChars]
    have habs : ((n.natAbs : ℕ) : ℚ) = -(n : ℚ) := by
      rw [Int.cast_natAbs, Int.cast_abs]
      exact abs_of_neg (by exact_mod_cast hn)
    simp [habs]
  · rw [intToString, if_neg hn, pyFloat?_natChars]
    have : ((n.toNat : ℕ) : ℚ) = (n : ℚ) := by
      exact_mod_cast Int.toNat_of_nonneg (le_of_not_lt hn)
    rw [this]

theorem pyFloat?_tenthsChars (m : ℤ) :
    pyFloat? (tenthsChars m) = some ((m : ℚ) / 10) := by
  by_cases hm : m < 0
  · rw [tenthsChars, if_pos hm]
    have : pyFloat? ('-' :: (natChars (m.natAbs / 10) ++ '.' :: [digitChar (m.natAbs % 10)]))
        = (parseUnsigned (natChars (m.natAbs / 10) ++ '.' :: [digitChar (m.natAbs % 10)])).map
            (fun q => -q) := by
      simp [pyFloat?]
    rw [List.append_assoc, List.singleton_append, this, parseUnsigned_tenths]
    have habs : ((m.natAbs : ℕ) : ℚ) = -(m : ℚ) := by
      rw [Int.cast_natAbs, Int.cast_abs]
      exact abs_of_neg (by exact_mod_cast hm)
    have hmap : Option.map (fun q : ℚ => -q) (some (((m.natAbs : ℕ) : ℚ) / 10))
        = some (-(((m.natAbs : ℕ) : ℚ) / 10)) := rfl
    rw [hmap, habs]
    congr 1
    ring
  · rw [tenthsChars, if_neg hm, List.nil_append]
    have hne : natChars (m.natAbs / 10) ++ '.' :: [digitChar (m.natAbs % 10)] ≠ [] := by
      simp
    have hhd : ∀ c, (natChars (m.natAbs / 10) ++ '.' :: [digitChar (m.natAbs % 10)]).head? = some c
        → pyIsDigit c = true := by
      intro c hc
      cases hnc : natChars (m.natAbs / 10) with
      | nil => exact absurd hnc (natChars_ne_nil _)
      | cons x xs =>
          rw [hnc, List.cons_append, List.head?_cons] at hc
          cases hc
          exact natChars_all_digit _ c (by rw [hnc]; simp)
    rw [pyFloat?_of_digit_head hhd hne, parseUnsigned_tenths]
    have habs : ((m.natAbs : ℕ) : ℚ) = (m : ℚ) := by
      rw [Int.cast_natAbs, Int.cast_abs]
      exact abs_of_nonneg (by exact_mod_cast le_of_not_lt hm)
    rw [habs]

theorem rhe_intCast (n : ℤ) : rhe ((n : ℤ) : ℚ) = n := by
  rw [rhe]
  rw [Int.floor_intCast]
  rw [if_pos (by norm_num)]

/-! ## Merge Pipeline (`main`, lines 36-184)

The unified table is modelled column-major: a list of (column name, cell list)
pairs.  File discovery, CSV reading and concatenation, and the final write are
external I/O, summarized by an `Env` record; `DataFrame.sort_values` is pandas
internals, modelled by an abstract `sorter` that may fail (its failure is
swallowed by the `try/except` of lines 169-172).
-/

abbrev Table := List (List Char × List Cell)

def colNames (t : Table) : List (List Char) := t.map Prod.fst

def strCols (names : List (List Char)) : List PyColName := names.map PyColName.str

/-- `col in combined.columns`. -/
def hasCol (t : Table) (c : List Char) : Bool := t.any (fun e => decide (e.1 = c))

/-- Columnwise update of every column labelled `c` (as pandas assignment does
for duplicate labels). -/
def mapCol (t : Table) (c : List Char) (f : Cell → Cell) : Table :=
  t.map (fun e => if e.1 = c then (e.1, e.2.map f) else e)

/-- All cell lists of the columns labelled `c`. -/
def getCol (t : Table) (c : List Char) : List (List Cell) :=
  (t.filter (fun e => decide (e.1 = c))).map Prod.snd

/-- `pd.to_numeric(·, errors="coerce")` per cell (line 130). -/
def coerceCell : Cell → Cell
  | .na => .na
  | .num q => .num q
  | .str s =>
      match pyFloat? s with
      | some q => .num q
      | none => .na

/-- `Series.round(1)` per cell (line 131); missing values stay missing. -/
def roundCell : Cell → Cell
  | .num q => .num (round1 q)
  | c => c

def numeric_targets_to_round : List (List Char) :=
  ["precipitacao".toList,
   "temperatura_maxima".toList,
   "temperatura_maxima_absoluta".toList,
   "temperatura_minima".toList]

/-- The body shared by the two loops at lines 127-131 and 148-151:
`col = target_bases.get(base)`, then `if col and col in combined.columns:`
(`col` is falsy both when `None` and when the empty string), then a columnwise
update. -/
def stageStep (g : Cell → Cell) (tb : TBMap) (t : Table) (base : List Char) : Table :=
  match lookupTB tb base with
  | some col => if decide (col ≠ []) && hasCol t col then mapCol t col g else t
  | none => t

def runStage (g : Cell → Cell) (tb : TBMap) (t : Table) : Table :=
  numeric_targets_to_round.foldl (stageStep g tb) t

/-- First loop (lines 127-131): coerce to numeric and round the four targets. -/
def coerceRoundStage (tb : TBMap) (t : Table) : Table :=
  runStage (fun v => roundCell (coerceCell v)) tb t

/-- Second loop (lines 148-151): format the four targets to display strings. -/
def formatStage (tb : TBMap) (t : Table) : Table :=
  runStage (fun v => .str (format_until_one_decimal v)) tb t

def numericStage (tb : TBMap) (t : Table) : Table :=
  formatStage tb (coerceRoundStage tb t)

def cidadeStr : List Char := "cidade".toList
def dataStr : List Char := "data".toList

/-- The search loop at lines 159-162 (`break` on the first hit). -/
def findCidadeCol (t : Table) : Option (List Char) :=
  (colNames t).find? (fun c => decide (c = cidadeStr) || pyIn cidadeStr c)

/-- The search loop at lines 163-166. -/
def findDataCol (t : Table) : Option (List Char) :=
  (colNames t).find? (fun c => decide (c = dataStr) || pyIn dataStr c)

/-- Lines 156-172: `if cidade_col and data_col:` (string truthiness: the empty
string is falsy) then `try: … sort_values … except: pass`. -/
def sortStage (sorter : Table → List Char → List Char → Option Table) (t : Table) :
    Table :=
  match findCidadeCol t, findDataCol t with
  | some cc, some dc =>
      if cc ≠ [] ∧ dc ≠ [] then
        match sorter t cc dc with
        | some t' => t'
        | none => t
      else t
  | _, _ => t

inductive OutEvent where
  | diagMissingDir
  | diagNoCsv
  | diagSaveError
  | mapping (tb : TBMap)
  | saved (path : List Char)
deriving DecidableEq

def isDiag : OutEvent → Bool
  | .diagMissingDir => true
  | .diagNoCsv => true
  | .diagSaveError => true
  | _ => false

/-- The external world of one run: whether `dados_cidades` exists, the matched
CSV file names, the concatenated table (the result of the reads at lines 60-73,
provenance column included), and whether the final `to_csv` succeeds. -/
structure Env where
  dirExists : Bool
  csvFiles : List (List Char)
  combined : Table
  writeOk : Bool

def output_file : List Char := "output/dados_processados/merged_cidades.csv".toList

structure RunResult where
  exitCode : Nat
  events : List OutEvent
  written : Option Table
deriving DecidableEq

/-- `main` (lines 36-184): check the input directory, check for CSV files,
normalize the column names, resolve the target fields (printing the mapping),
coerce/round/format, best-effort sort, then write (printing the output path on
success, a diagnostic and exit 1 on failure). -/
def mainRun (S : CharSem Char)
    (sorter : Table → List Char → List Char → Option Table) (env : Env) : RunResult :=
  if !env.dirExists then
    { exitCode := 1, events := [.diagMissingDir], written := none }
  else if env.csvFiles.isEmpty then
    { exitCode := 1, events := [.diagNoCsv], written := none }
  else
    let renamed : Table := env.combined.map (fun e => (normalize_colname S e.1, e.2))
    let tb := resolveTargetBases (strCols (colNames renamed))
    let sorted := sortStage sorter (numericStage tb renamed)
    if env.writeOk then
      { exitCode := 0, events := [.mapping tb, .saved output_file], written := some sorted }
    else
      { exitCode := 1, events := [.mapping tb, .diagSaveError], written := none }

theorem getCol_cons (c' : List Char) (x : List Char × List Cell) (l : Table) :
    getCol (x :: l) c' = (if x.1 = c' then [x.2] else []) ++ getCol l c' := by
  by_cases hx : x.1 = c'
  · simp [getCol, List.filterMap_cons, hx]
  · simp [getCol, List.filterMap_cons, hx]

theorem getCol_mapCol_ne {c c' : List Char} {f : Cell → Cell} (h : c ≠ c') :
    ∀ t : Table, getCol (mapCol t c f) c' = getCol t c' := by
  intro t
  induction t with
  | nil => rfl
  | cons e rest ih =>
      have hmc : mapCol (e :: rest) c f
          = (if e.1 = c then (e.1, e.2.map f) else e) :: mapCol rest c f := rfl
      rw [hmc, getCol_cons, getCol_cons c' e rest, ih]
      by_cases he : e.1 = c
      · have he' : e.1 ≠ c' := by rw [he]; exact h
        rw [if_pos he]
        simp [he']
      · rw [if_neg he]

theorem getCol_stageStep_ne (g : Cell → Cell) (tb : TBMap) (base c' : List Char)
    (h : lookupTB tb base ≠ some c') (t : Table) :
    getCol (stageStep g tb t base) c' = getCol t c' := by
  cases hl : lookupTB tb base with
  | none => simp only [stageStep, hl]
  | some col =>
      have hcc' : col ≠ c' := fun hc => h (hc ▸ hl)
      simp only [stageStep, hl]
      split
      · exact getCol_mapCol_ne hcc' t
      · rfl

theorem getCol_runStage_ne (g : Cell → Cell) (tb : TBMap) (c' : List Char)
    (h : ∀ base ∈ numeric_targets_to_round, lookupTB tb base ≠ some c') (t : Table) :
    getCol (runStage g tb t) c' = getCol t c' := by
  rw [runStage]
  simp only [numeric_targets_to_round, List.foldl_cons, List.foldl_nil]
  rw [getCol_stageStep_ne g tb _ c'
      (h _ (by simp [numeric_targets_to_round])) _,
    getCol_stageStep_ne g tb _ c'
      (h _ (by simp [numeric_targets_to_round])) _,
    getCol_stageStep_ne g tb _ c'
      (h _ (by simp [numeric_targets_to_round])) _,
    getCol_stageStep_ne g tb _ c'
      (h _ (by simp [numeric_targets_to_round])) _]

theorem getCol_numericStage_ne (tb : TBMap) (c' : List Char)
    (h : ∀ base ∈ numeric_targets_to_round, lookupTB tb base ≠ some c') (t : Table) :
    getCol (numericStage tb t) c' = getCol t c' := by
  rw [numericStage, formatStage, coerceRoundStage,
    getCol_runStage_ne _ tb c' h _, getCol_runStage_ne _ tb c' h _]

theorem findCidadeCol_ne_nil {t : Table} {cc : List Char}
    (h : findCidadeCol t = some cc) : cc ≠ [] := by
  have hp := List.find?_some h
  intro hnil
  subst hnil
  simp only [Bool.or_eq_true, decide_eq_true_eq] at hp
  rcases hp with hp | hp
  · exact absurd hp.symm (by decide)
  · exact absurd hp (by decide)

theorem findDataCol_ne_nil {t : Table} {dc : List Char}
    (h : findDataCol t = some dc) : dc ≠ [] := by
  have hp := List.find?_some h
  intro hnil
  subst hnil
  simp only [Bool.or_eq_true, decide_eq_true_eq] at hp
  rcases hp with hp | hp
  · exact absurd hp.symm (by decide)
  · exact absurd hp (by decide)

/-! ## Helper facts about matching -/

theorem pymatches_pyIn {b s : List Char} (h : pymatches b s = true) : pyIn b s = true := by
  simp only [pymatches, Bool.or_eq_true, decide_eq_true_eq] at h
  rcases h with ((h | h) | h) | h
  · rw [h]
    exact pyIn_refl b
  · exact pyIn_of_isPrefixList (isPrefixList_append_left h)
  · have hin := pyEndsWith_pyIn h
    rcases (pyIn_iff _ _).mp hin with ⟨l, r, hr⟩
    exact (pyIn_iff b s).mpr ⟨l ++ ['_'], r, by simp [hr, List.append_assoc]⟩
  · exact h

theorem firstMatchCol_spec :
    ∀ (cols : List PyColName) (b s : List Char),
      firstMatchCol cols b = some s →
      PyColName.str s ∈ cols ∧ pymatches b s = true := by
  intro cols
  induction cols with
  | nil =>
      intro b s h
      exact Option.noConfusion h
  | cons c rest ih =>
      intro b s h
      cases c with
      | nonstr tag =>
          have heq : firstMatchCol (PyColName.nonstr tag :: rest) b
              = firstMatchCol rest b := by
            simp [firstMatchCol, List.findSome?]
          rw [heq] at h
          obtain ⟨h1, h2⟩ := ih b s h
          exact ⟨List.mem_cons_of_mem _ h1, h2⟩
      | str s0 =>
          by_cases hm : pymatches b s0 = true
          · have heq : firstMatchCol (PyColName.str s0 :: rest) b = some s0 := by
              simp [firstMatchCol, List.findSome?, hm]
            rw [heq] at h
            injection h with hs0
            subst hs0
            exact ⟨by simp, hm⟩
          · have heq : firstMatchCol (PyColName.str s0 :: rest) b
                = firstMatchCol rest b := by
              have hm' : pymatches b s0 = false := by simpa using hm
              simp [firstMatchCol, List.findSome?, hm']
            rw [heq] at h
            obtain ⟨h1, h2⟩ := ih b s h
            exact ⟨List.mem_cons_of_mem _ h1, h2⟩

/-! ## Claim theorems -/

/-- C1: for every list of normalized column names scanned in table column
order, and each of the five target bases, the resolver records a column as
matching iff it equals the base, starts with `base ++ "_"`, ends with
`"_" ++ base`, or contains the base; the first match becomes the candidate, a
later match overwrites it only when it is an exact equality with the base (so
the last exact match wins and an exact match beats any partial match
regardless of scan order).  `resolveSpec` states that policy: the resolved
column is the base itself when an exact match exists, else the first matching
column. -/
theorem resolver_tiebreak (cols : List PyColName) (b : List Char)
    (hb : b ∈ target_bases_keys) :
    lookupTB (resolveTargetBases cols) b = resolveSpec cols b := by
  rw [lookupTB_resolve cols b hb, updFold_char b cols none]
  rfl

theorem resolver_tiebreak_witness :
    "temperatura_maxima".toList ∈ target_bases_keys ∧
    lookupTB (resolveTargetBases
        [PyColName.str "temperatura_maxima_absoluta".toList,
          PyColName.str "temperatura_maxima".toList]) "temperatura_maxima".toList
      = resolveSpec
        [PyColName.str "temperatura_maxima_absoluta".toList,
          PyColName.str "temperatura_maxima".toList] "temperatura_maxima".toList ∧
    lookupTB (resolveTargetBases
        [PyColName.str "temperatura_maxima_absoluta".toList,
          PyColName.str "temperatura_maxima".toList]) "temperatura_maxima".toList
      = some "temperatura_maxima".toList :=
  ⟨by decide, resolver_tiebreak _ _ (by decide), by decide⟩

/-- C9: a normalized column list containing `temperatura_minima_absoluta` and
no column exactly equal to `temperatura_minima` resolves *both* the
`temperatura_minima` target and the `temperatura_minima_absoluta` target to
that same column: one source column is selected for two targets at once. -/
theorem resolver_shared_column :
    lookupTB (resolveTargetBases [PyColName.str "temperatura_minima_absoluta".toList])
        "temperatura_minima".toList
      = some "temperatura_minima_absoluta".toList ∧
    lookupTB (resolveTargetBases [PyColName.str "temperatura_minima_absoluta".toList])
        "temperatura_minima_absoluta".toList
      = some "temperatura_minima_absoluta".toList ∧
    PyColName.str "temperatura_minima".toList
      ∉ [PyColName.str "temperatura_minima_absoluta".toList] := by
  decide

/-- C10: every target that resolves to a value resolves to a string drawn from
the input column list that contains the target base as a substring; non-string
column names are never selected. -/
theorem resolver_value_invariant (cols : List PyColName) (b s : List Char)
    (hb : b ∈ target_bases_keys)
    (hs : lookupTB (resolveTargetBases cols) b = some s) :
    PyColName.str s ∈ cols ∧ pyIn b s = true := by
  rw [lookupTB_resolve cols b hb, updFold_char b cols none] at hs
  by_cases hx : hasExact cols b = true
  · rw [if_pos hx] at hs
    injection hs with hbs
    constructor
    · rcases List.any_eq_true.mp hx with ⟨c, hc, hcb⟩
      cases c with
      | str s0 =>
          have hs0 : s0 = b := by simpa using hcb
          rw [← hbs, ← hs0]
          exact hc
      | nonstr tag => simp at hcb
    · rw [← hbs]
      exact pyIn_refl b
  · rw [if_neg hx] at hs
    have hs' : firstMatchCol cols b = some s := hs
    obtain ⟨h1, h2⟩ := firstMatchCol_spec cols b s hs'
    exact ⟨h1, pymatches_pyIn h2⟩

theorem resolver_value_invariant_witness :
    PyColName.str "precipitacao_mm".toList ∈ [PyColName.str "precipitacao_mm".toList] ∧
    pyIn "precipitacao".toList "precipitacao_mm".toList = true :=
  resolver_value_invariant [PyColName.str "precipitacao_mm".toList]
    "precipitacao".toList "precipitacao_mm".toList (by decide) (by decide)

theorem den_eq_one_of_intCast {q : ℚ} (h : ∃ n : ℤ, (n : ℚ) = q) : q.den = 1 := by
  rcases h with ⟨n, hn⟩
  rw [← hn]
  exact Rat.den_intCast n

theorem dot_not_mem_natChars (k : Nat) : '.' ∉ natChars k := by
  intro h
  rcases List.mem_map.mp h with ⟨d, hd, hdc⟩
  exact digitChar_ne_dot (natDigits_lt k d hd) hdc

theorem dot_not_mem_intToString (n : ℤ) : '.' ∉ intToString n := by
  rw [intToString]
  split
  · intro hmem
    rcases List.mem_cons.mp hmem with h | h
    · exact absurd h (by decide)
    · exact dot_not_mem_natChars _ h
  · exact dot_not_mem_natChars _

/-- C3: the value formatter returns the empty string on a missing value, the
integer string (no decimal point) when the value converts to a float that is an
exact integer, the one-decimal fixed string otherwise, and the raw string form
of the value when conversion of a non-missing value fails. -/
theorem format_value_cases (v : Cell) :
    (v = Cell.na → format_until_one_decimal v = []) ∧
    (∀ q : ℚ, cellFloat? v = some q → (∃ n : ℤ, (n : ℚ) = q) →
      format_until_one_decimal v = intToString q.num ∧
        '.' ∉ format_until_one_decimal v) ∧
    (∀ q : ℚ, cellFloat? v = some q → (∀ n : ℤ, (n : ℚ) ≠ q) →
      format_until_one_decimal v = oneDecChars q) ∧
    (∀ s, v = Cell.str s → pyFloat? s = none → format_until_one_decimal v = s) := by
  refine ⟨?_, ?_, ?_, ?_⟩
  · intro hv; subst hv; rfl
  · intro q hq hint
    have hden : q.den = 1 := den_eq_one_of_intCast hint
    cases v with
    | na => exact Option.noConfusion hq
    | num q0 =>
        simp only [cellFloat?] at hq
        injection hq with h0
        subst h0
        refine ⟨?_, ?_⟩
        · simp only [format_until_one_decimal, numFmt, if_pos hden]
        · simp only [format_until_one_decimal, numFmt, if_pos hden]
          exact dot_not_mem_intToString _
    | str s0 =>
        simp only [cellFloat?] at hq
        refine ⟨?_, ?_⟩
        · simp only [format_until_one_decimal, hq, numFmt, if_pos hden]
        · simp only [format_until_one_decimal, hq, numFmt, if_pos hden]
          exact dot_not_mem_intToString _
  · intro q hq hnint
    have hden : q.den ≠ 1 := fun hd => hnint q.num ((Rat.den_eq_one_iff q).mp hd)
    cases v with
    | na => exact Option.noConfusion hq
    | num q0 =>
        simp only [cellFloat?] at hq
        injection hq with h0
        subst h0
        simp only [format_until_one_decimal, numFmt, if_neg hden]
    | str s0 =>
        simp only [cellFloat?] at hq
        simp only [format_until_one_decimal, hq, numFmt, if_neg hden]
  · intro s hv hp
    subst hv
    simp only [format_until_one_decimal, hp]

theorem format_value_cases_witness :
    format_until_one_decimal (Cell.num 12) = "12".toList ∧
    format_until_one_decimal (Cell.num (Rat.divInt 123 10)) = "12.3".toList ∧
    format_until_one_decimal Cell.na = [] := by
  refine ⟨?_, ?_, (format_value_cases Cell.na).1 rfl⟩
  · have h := ((format_value_cases (Cell.num 12)).2.1 12 rfl ⟨12, by norm_num⟩).1
    rw [h]
    decide
  · have hnint : ∀ n : ℤ, (n : ℚ) ≠ Rat.divInt 123 10 := by
      intro n hn
      have h10 : (10 : ℚ) * n = 123 := by
        rw [hn, Rat.divInt_eq_div]
        norm_num
      have h10' : (10 : ℤ) * n = 123 := by exact_mod_cast h10
      omega
    have h := (format_value_cases (Cell.num (Rat.divInt 123 10))).2.2.1
      (Rat.divInt 123 10) rfl hnint
    rw [h, oneDecChars]
    have hm : (10 : ℚ) * Rat.divInt 123 10 = ((123 : ℤ) : ℚ) := by
      rw [Rat.divInt_eq_div]
      norm_num
    rw [hm, rhe_intCast]
    decide

/-- C6: re-parsing the non-empty formatted string of a value rounded to one
decimal place yields exactly the rounded value. -/
theorem roundtrip_format (v : ℚ) (h : numFmt (round1 v) ≠ []) :
    pyFloat? (numFmt (round1 v)) = some (round1 v) := by
  have hq : round1 v = ((rhe (10 * v) : ℤ) : ℚ) / 10 := rfl
  by_cases hden : (round1 v).den = 1
  · rw [numFmt, if_pos hden, pyFloat?_intToString]
    congr 1
    exact (Rat.den_eq_one_iff _).mp hden
  · rw [numFmt, if_neg hden, oneDecChars]
    have h10 : 10 * round1 v = ((rhe (10 * v) : ℤ) : ℚ) := by
      rw [hq]; ring
    rw [h10, rhe_intCast, pyFloat?_tenthsChars]
    rw [hq]

theorem roundtrip_format_witness :
    pyFloat? (numFmt (round1 12)) = some (round1 12) ∧ numFmt (round1 12) ≠ [] := by
  have h12 : round1 (12 : ℚ) = ((12 : ℤ) : ℚ) := by
    rw [round1]
    have h120 : (10 : ℚ) * 12 = ((120 : ℤ) : ℚ) := by norm_num
    rw [h120, rhe_intCast]
    norm_num
  have hne : numFmt (round1 12) ≠ [] := by
    rw [h12, numFmt, if_pos (Rat.den_intCast 12), Rat.num_intCast]
    decide
  exact ⟨roundtrip_format 12 hne, hne⟩

/-- C4: column-name normalization is idempotent.  The hypothesis is the
character-level Unicode stability of the normalizer's own output alphabet
(lowercased alphanumerics and the underscore): each such character is
NFKD-stable, non-combining, fixed by lowercasing and not whitespace — the facts
the Python runtime provides and the abstract `CharSem` cannot.  Everything
string-level (stripping, cleaning, underscore collapsing) is proved, not
assumed. -/
theorem normalize_colname_idem (S : CharSem α) (x : List α)
    (h : ∀ c ∈ normalize_colname S x,
      S.nfkd c = [c] ∧ S.combining c = false ∧ S.lower c = [c] ∧ S.isSpace c = false) :
    normalize_colname S (normalize_colname S x) = normalize_colname S x := by
  have hclass : ∀ c ∈ normalize_colname S x, c = S.underscore ∨ S.isAlnum c = true :=
    fun c hc => (mem_normalize_classify S x hc).imp id And.left
  have h1 : (normalize_colname S x).flatMap S.nfkd = normalize_colname S x :=
    flatMap_eq_self (fun c hc => (h c hc).1)
  have h2 : (normalize_colname S x).filter (fun c => !(S.combining c))
      = normalize_colname S x :=
    List.filter_eq_self.mpr (fun c hc => by simp [(h c hc).2.1])
  have h3 : (normalize_colname S x).flatMap S.lower = normalize_colname S x :=
    flatMap_eq_self (fun c hc => (h c hc).2.2.1)
  have h4 : pstrip S.isSpace (normalize_colname S x) = normalize_colname S x :=
    pstrip_eq_self_of_ends
      (fun a ha => (h a (List.mem_of_mem_head? ha)).2.2.2)
      (fun a ha => (h a (getLast?_mem ha)).2.2.2)
  have h5 : (normalize_colname S x).map
      (fun ch => if S.isAlnum ch then ch else S.underscore) = normalize_colname S x := by
    apply map_eq_self
    intro c hc
    rcases hclass c hc with hcu | hca
    · rw [hcu]; exact ite_self _
    · rw [if_pos hca]
  have h6 : collapseUU S.underscore (normalize_colname S x) = normalize_colname S x :=
    collapseUU_eq_self (normalize_noUU S x)
  have h7 : pstrip (fun c => decide (c = S.underscore)) (normalize_colname S x)
      = normalize_colname S x :=
    pstrip_eq_self_of_ends
      (fun a ha => by simpa using normalize_head_ne S x ha)
      (fun a ha => by simpa using normalize_last_ne S x ha)
  set y := normalize_colname S x with hy
  show normalize_colname S y = y
  simp only [normalize_colname]
  rw [h1, h2, h3, h4, h5, h6, h7]

/-- C5: the output of column-name normalization never has a leading underscore,
a trailing underscore, or two consecutive underscores, and contains no
uppercase and no combining-marked character.  The two character-level parts
assume the corresponding Unicode facts about the runtime primitives:
lowercasing a non-combining character yields only non-upper, non-combining
characters, and the underscore itself is neither. -/
theorem normalize_colname_clean (S : CharSem α) (x : List α)
    (hLow : ∀ c d, S.combining c = false → d ∈ S.lower c →
      S.isUpper d = false ∧ S.combining d = false)
    (hU : S.isUpper S.underscore = false ∧ S.combining S.underscore = false) :
    (∀ a, (normalize_colname S x).head? = some a → a ≠ S.underscore) ∧
    (∀ a, (normalize_colname S x).getLast? = some a → a ≠ S.underscore) ∧
    hasUU S.underscore (normalize_colname S x) = false ∧
    (∀ c ∈ normalize_colname S x, S.isUpper c = false ∧ S.combining c = false) := by
  refine ⟨fun a ha => normalize_head_ne S x ha,
          fun a ha => normalize_last_ne S x ha,
          normalize_noUU S x, ?_⟩
  intro c hc
  rcases mem_normalize_classify S x hc with hcu | ⟨_, d, hd, hlow⟩
  · rw [hcu]; exact hU
  · exact hLow d c hd hlow

/-- A small concrete character alphabet witnessing the `CharSem` assumptions:
underscore, space, capital A, lowercase a and b, one digit. -/
inductive Ch where
  | u | sp | ca | la | lb | d1
deriving DecidableEq, Fintype

def chSem : CharSem Ch where
  nfkd c := [c]
  combining _ := false
  lower c := [if c = Ch.ca then Ch.la else c]
  isSpace c := decide (c = Ch.sp)
  isAlnum c :=
    decide (c = Ch.ca) || decide (c = Ch.la) || decide (c = Ch.lb) || decide (c = Ch.d1)
  isUpper c := decide (c = Ch.ca)
  underscore := Ch.u

theorem normalize_colname_idem_witness :
    normalize_colname chSem (normalize_colname chSem [Ch.ca, Ch.sp, Ch.la])
      = normalize_colname chSem [Ch.ca, Ch.sp, Ch.la] :=
  normalize_colname_idem chSem [Ch.ca, Ch.sp, Ch.la] (by decide)

theorem normalize_colname_clean_witness :
    (normalize_colname chSem [Ch.ca, Ch.sp, Ch.la]).head? ≠ some chSem.underscore ∧
    hasUU chSem.underscore (normalize_colname chSem [Ch.ca, Ch.sp, Ch.la]) = false ∧
    (∀ c ∈ normalize_colname chSem [Ch.ca, Ch.sp, Ch.la], chSem.isUpper c = false) := by
  have h := normalize_colname_clean chSem [Ch.ca, Ch.sp, Ch.la] (by decide) (by decide)
  exact ⟨fun hc => h.1 _ hc rfl, h.2.2.1, fun c hc => (h.2.2.2 c hc).1⟩

/-- C2 counterexample: in a table whose only column is named
`temperatura_minima_absoluta`, that column is the one resolved for the
`temperatura_minima_absoluta` target, yet the coerce/round/format stage *does*
rewrite its cells (because the same column is also resolved for the rounded
target `temperatura_minima`): the claim's unconditional exclusion is false. -/
theorem tminabs_not_always_excluded :
    lookupTB (resolveTargetBases (strCols (colNames
        [("temperatura_minima_absoluta".toList, [Cell.str ['x']])])))
        "temperatura_minima_absoluta".toList
      = some "temperatura_minima_absoluta".toList ∧
    getCol (numericStage
        (resolveTargetBases (strCols (colNames
          [("temperatura_minima_absoluta".toList, [Cell.str ['x']])])))
        [("temperatura_minima_absoluta".toList, [Cell.str ['x']])])
        "temperatura_minima_absoluta".toList
      ≠ getCol [("temperatura_minima_absoluta".toList, [Cell.str ['x']])]
        "temperatura_minima_absoluta".toList := by
  decide

/-- C2 (amended): the column resolved for `temperatura_minima_absoluta` is left
unchanged by the numeric coercion and display-formatting stages — which rewrite
only the columns resolved for the four rounded targets — *provided* it is not
also the column resolved for one of those four targets (the resolver can select
one column for several targets). -/
theorem tminabs_excluded_of_not_shared (t : Table) (col : List Char)
    (hres : lookupTB (resolveTargetBases (strCols (colNames t)))
        "temperatura_minima_absoluta".toList = some col)
    (hnc : ∀ base ∈ numeric_targets_to_round,
      lookupTB (resolveTargetBases (strCols (colNames t))) base ≠ some col) :
    getCol (numericStage (resolveTargetBases (strCols (colNames t))) t) col
      = getCol t col :=
  getCol_numericStage_ne _ col hnc t

theorem tminabs_excluded_witness :
    getCol (numericStage
        (resolveTargetBases (strCols (colNames
          [("temperatura_minima".toList, [Cell.str ['x']]),
            ("temperatura_minima_absoluta".toList, [Cell.str ['y']])])))
        [("temperatura_minima".toList, [Cell.str ['x']]),
          ("temperatura_minima_absoluta".toList, [Cell.str ['y']])])
        "temperatura_minima_absoluta".toList
      = getCol [("temperatura_minima".toList, [Cell.str ['x']]),
          ("temperatura_minima_absoluta".toList, [Cell.str ['y']])]
        "temperatura_minima_absoluta".toList :=
  tminabs_excluded_of_not_shared
    [("temperatura_minima".toList, [Cell.str ['x']]),
      ("temperatura_minima_absoluta".toList, [Cell.str ['y']])]
    "temperatura_minima_absoluta".toList (by decide) (by decide)

/-- C7: the run exits non-zero exactly when the input directory is missing, no
CSV file was found, or the write fails; a diagnostic is printed exactly in
those cases, and on success (and only then) the resolved target-field mapping
and the output path are both printed. -/
theorem mainRun_exit_behavior (S : CharSem Char)
    (sorter : Table → List Char → List Char → Option Table) (env : Env) :
    ((mainRun S sorter env).exitCode = 0 ↔
      env.dirExists = true ∧ env.csvFiles ≠ [] ∧ env.writeOk = true) ∧
    ((mainRun S sorter env).exitCode ≠ 0 ↔
      ∃ e ∈ (mainRun S sorter env).events, isDiag e = true) ∧
    ((mainRun S sorter env).exitCode = 0 ↔
      (∃ tb, OutEvent.mapping tb ∈ (mainRun S sorter env).events) ∧
        OutEvent.saved output_file ∈ (mainRun S sorter env).events) := by
  rcases env with ⟨de, files, comb, wok⟩
  cases de
  · simp [mainRun, isDiag]
  · cases hf : files.isEmpty
    · have hne : files ≠ [] := by simpa using hf
      cases wok
      · simp [mainRun, hf, hne, isDiag]
      · simp [mainRun, hf, hne, isDiag]
    · have hnil : files = [] := by simpa using hf
      simp [mainRun, hf, hnil, isDiag]

/-- C8: the unified table is sorted only when both a city column and a date
column are found; when either is absent, or the sort itself fails, the table is
returned unchanged, in concatenation order. -/
theorem sort_best_effort (sorter : Table → List Char → List Char → Option Table)
    (t : Table) :
    (findCidadeCol t = none ∨ findDataCol t = none → sortStage sorter t = t) ∧
    (∀ cc dc, findCidadeCol t = some cc → findDataCol t = some dc →
      sorter t cc dc = none → sortStage sorter t = t) ∧
    (∀ cc dc t', findCidadeCol t = some cc → findDataCol t = some dc →
      sorter t cc dc = some t' → sortStage sorter t = t') := by
  refine ⟨?_, ?_, ?_⟩
  · intro h
    rcases h with h | h
    · simp [sortStage, h]
    · cases hc : findCidadeCol t <;> simp [sortStage, hc, h]
  · intro cc dc hcc hdc hsort
    have h1 := findCidadeCol_ne_nil hcc
    have h2 := findDataCol_ne_nil hdc
    simp only [sortStage, hcc, hdc]
    rw [if_pos ⟨h1, h2⟩, hsort]
  · intro cc dc t' hcc hdc hsort
    have h1 := findCidadeCol_ne_nil hcc
    have h2 := findDataCol_ne_nil hdc
    simp only [sortStage, hcc, hdc]
    rw [if_pos ⟨h1, h2⟩, hsort]

/-- ASCII instance of the character primitives, for concrete runs. -/
def chSemChar : CharSem Char where
  nfkd c := [c]
  combining _ := false
  lower c := [c.toLower]
  isSpace c := decide (c = ' ')
  isAlnum c := c.isAlphanum
  isUpper c := decide ('A' ≤ c ∧ c ≤ 'Z')
  underscore := '_'

theorem mainRun_exit_behavior_witness :
    (mainRun chSemChar (fun _ _ _ => none) (Env.mk false [] [] false)).exitCode ≠ 0 := by
  have h := (mainRun_exit_behavior chSemChar (fun _ _ _ => none)
    (Env.mk false [] [] false)).1
  intro h0
  exact absurd (h.mp h0).1 (by decide)

theorem sort_best_effort_witness :
    sortStage (fun _ _ _ => some ([] : Table)) [(cidadeStr, []), (dataStr, [])] = [] :=
  (sort_best_effort (fun _ _ _ => some ([] : Table)) [(cidadeStr, []), (dataStr, [])]).2.2
    cidadeStr dataStr [] (by decide) (by decide) rfl

end MergeCidades
